import Mathlib

/-!
# RandomGenerator

A shallow embedding of `src/libraries/RandomGenerator/RandomGenerator.cpp`:
the watchdog interrupt handler `ISR(WDT_vect)`, the byte rotation `rotl` and
the blocking extractor `generateRandom`, followed by the properties proved
about them.  The extractor is modelled twice: with every loop iteration run
as one step, and statement by statement with the interrupt served between
any two statements.

Machine integers are natural numbers.  A `uint8_t` is a natural number below
`256`, the `uint32_t` shift of `rotl` is a natural number below `2 ^ 32`, and
every store into a `uint8_t` that could exceed the width is written with an
explicit `% 256`.
-/

namespace RandomGenerator

/-! ## The rotate helper (lines 28-33) -/

/-- The value of `sizeof(value)` for the `uint8_t` parameter of `rotl`. -/
def sizeofValue : Nat := 1

/-- The function `rotl` of the source.
`shift &= sizeof(value) * 8 - 1` masks the shift with `7`; a masked shift of
zero returns `value` itself.  Otherwise both shifts are evaluated on the
promoted (wider) `int`, where nothing is lost, and the conversion of the
returned expression to `uint8_t` is the final `% 256`. -/
def rotl (value shift : Nat) : Nat :=
  let shift := shift &&& (sizeofValue * 8 - 1)
  if shift = 0 then value
  else ((value <<< shift) ||| (value >>> (sizeofValue * 8 - shift))) % 256

/-! ## Shared state and the sampler (lines 8-9 and 23-26) -/

/-- The variables of the module: the globals `sample` and `sampleWaiting`,
the function-static accumulator `result` of `generateRandom`, and the local
`currentBit` of the call of `generateRandom` in progress. -/
structure State where
  sample : Nat
  sampleWaiting : Bool
  result : Nat
  currentBit : Nat
deriving DecidableEq, Repr

/-- The state at program start: `sample = 0`, `sampleWaiting = false`,
`result = 0`. -/
def initState : State := ⟨0, false, 0, 0⟩

/-- The hardware register `TCNT1L`: the low byte of Timer/Counter1, whose
16-bit reading is the argument. -/
def TCNT1L (tcnt1 : Nat) : Nat := tcnt1 % 256

/-- The handler `ISR(WDT_vect)`, run atomically while Timer/Counter1 reads
`tcnt1`: `sample = TCNT1L; sampleWaiting = true;`. -/
def WDT_vect (tcnt1 : Nat) (st : State) : State :=
  let st := { st with sample := TCNT1L tcnt1 }
  { st with sampleWaiting := true }

/-! ## The extractor (lines 35-55) -/

/-- Lines 43-48 of `generateRandom`, the body of `if (sampleWaiting)` up to
`currentBit++`: clear the flag, rotate the accumulator, XOR the sample in,
count the sample. -/
def consumeSample (st : State) : State :=
  let st := { st with sampleWaiting := false }
  let st := { st with result := rotl st.result 1 }
  let st := { st with result := (st.result ^^^ st.sample) % 256 }
  { st with currentBit := (st.currentBit + 1) % 256 }

/-- One iteration of the `while (1)` loop of `generateRandom` (lines 40-53),
run without interruption.  `delay(1)` changes none of the variables; the
interrupts that fire during it are the `wdt` events a schedule places before
the poll.  The second component is `some r` when the iteration executes
`return result` with value `r`, and `none` when the loop goes round again. -/
def loopBody (st : State) : State × Option Nat :=
  if st.sampleWaiting then
    let st := consumeSample st
    if st.currentBit > 7 then
      let st := { st with currentBit := 0 }
      (st, some st.result)
    else (st, none)
  else (st, none)

/-- What happens around the extractor: the watchdog interrupt fires (with the
reading of Timer/Counter1 at that instant), or the extractor runs one
iteration of its loop. -/
inductive Event where
  | wdt (tcnt1 : Nat)
  | poll
deriving DecidableEq, Repr

/-- The result of running a call of `generateRandom` against a finite
schedule: it returned `value`, leaving state `st` and the unused events
`rest`; or the schedule ended with the call still inside its loop, in state
`st`. -/
inductive Outcome where
  | returned (value : Nat) (st : State) (rest : List Event)
  | blocked (st : State)
deriving DecidableEq, Repr

/-- The `while (1)` loop of `generateRandom` against a schedule of events. -/
def generateRandomLoop : List Event → State → Outcome
  | [], st => .blocked st
  | .wdt c :: rest, st => generateRandomLoop rest (WDT_vect c st)
  | .poll :: rest, st =>
    match loopBody st with
    | (st', some r) => .returned r st' rest
    | (st', none) => generateRandomLoop rest st'

/-- The function `generateRandom`: `currentBit` starts at `0`, the static
`result` is whatever the previous call left. -/
def generateRandom (evs : List Event) (st : State) : Outcome :=
  generateRandomLoop evs { st with currentBit := 0 }

/-! ## Runs of the step machine and what they show -/

/-- One step of the machine whose steps are a sampler firing and an
extractor poll. -/
def step (e : Event) (st : State) : State :=
  match e with
  | .wdt c => WDT_vect c st
  | .poll => (loopBody st).1

/-- The state after a sequence of steps. -/
def runEvents (evs : List Event) (st : State) : State :=
  evs.foldl (fun s e => step e s) st

/-- The samples read by the consuming polls of a run, in order: a poll that
finds `sampleWaiting` set reads the value `sample` holds at that moment. -/
def samplesSeen : List Event → State → List Nat
  | [], _ => []
  | e :: rest, st =>
    if e = Event.poll ∧ st.sampleWaiting = true then
      st.sample :: samplesSeen rest (step e st)
    else samplesSeen rest (step e st)

/-- The mixing fold `a(i+1) = rotl(a(i), 1) XOR s(i)`. -/
def mix (acc : Nat) (samples : List Nat) : Nat :=
  samples.foldl (fun a s => rotl a 1 ^^^ s) acc

/-- A schedule in which every sample of the list is published by one
sampler firing and then consumed by one poll. -/
def feed (samples : List Nat) : List Event :=
  samples.flatMap (fun s => [Event.wdt s, Event.poll])

/-- Whether a sampler firing has occurred since the most recent consuming
poll of a run (or since its start, when no poll consumed): `fired` is the
answer before the run.  A firing makes it true, a poll that finds
`sampleWaiting` set (a consuming poll) makes it false, a poll that finds the
flag unset leaves it as it is. -/
def firedSinceConsume : List Event → State → Bool → Bool
  | [], _, fired => fired
  | .wdt c :: rest, st, _ => firedSinceConsume rest (step (.wdt c) st) true
  | .poll :: rest, st, fired =>
    firedSinceConsume rest (step .poll st) (if st.sampleWaiting then false else fired)

/-- The byte a call of `generateRandom` returns when it starts with
accumulator `acc` and the samples of `window` are published and consumed one
by one; `none` when the call does not return on that schedule. -/
def returnedByte (acc : Nat) (window : List Nat) : Option Nat :=
  match generateRandom (feed window)
      { sample := 0, sampleWaiting := false, result := acc, currentBit := 0 } with
  | .returned r _ _ => some r
  | .blocked _ => none

/-! ## The extractor statement by statement, under preemption -/

/-- The statement of `generateRandom` the extractor executes next:
`test` is `delay(1); if (sampleWaiting)` (lines 40-42), `clear` is
`sampleWaiting = false;` (line 43), `rotate` is `result = rotl(result, 1);`
(line 45), `xor` is `result ^= sample;` (line 46), and `count` is
`currentBit++; if (currentBit > 7) { currentBit = 0; return result; }`
(lines 48-52). -/
inductive Pc where
  | test
  | clear
  | rotate
  | xor
  | count
deriving DecidableEq, Repr

/-- The variables together with the position of the extractor. -/
structure Config where
  st : State
  pc : Pc
deriving DecidableEq, Repr

/-- The extractor executes its next statement.  The second component is
`some r` when the statement is `return result` with value `r`; the next call
then starts at the head of the loop with `currentBit = 0`. -/
def execStmt (c : Config) : Config × Option Nat :=
  match c.pc with
  | .test =>
    if c.st.sampleWaiting then ({ c with pc := .clear }, none) else (c, none)
  | .clear => ({ st := { c.st with sampleWaiting := false }, pc := .rotate }, none)
  | .rotate => ({ st := { c.st with result := rotl c.st.result 1 }, pc := .xor }, none)
  | .xor =>
    ({ st := { c.st with result := (c.st.result ^^^ c.st.sample) % 256 }, pc := .count },
      none)
  | .count =>
    let st := { c.st with currentBit := (c.st.currentBit + 1) % 256 }
    if st.currentBit > 7 then
      ({ st := { st with currentBit := 0 }, pc := .test }, some st.result)
    else ({ st := st, pc := .test }, none)

/-- What happens next under preemption: the watchdog interrupt is served
before the extractor's next statement, or the extractor executes that
statement. -/
inductive Action where
  | isr (tcnt1 : Nat)
  | stmt
deriving DecidableEq, Repr

/-- One action of the preemptive machine. -/
def act (a : Action) (c : Config) : Config :=
  match a with
  | .isr t => { c with st := WDT_vect t c.st }
  | .stmt => (execStmt c).1

/-- A record of who wrote what was read.  Sampler writes are numbered
`1, 2, 3, ...` in the order of the firings; `fired` is the number of the
latest one, the write `sample` holds and the last to have set the flag.
`cleared` is the number `fired` had when the extractor last cleared the flag:
the publication that had set the flag this poll cleared.  `folds` has one
entry per executed `result ^= sample`: the value of `cleared` of that poll,
and the number of the write whose value the statement read. -/
structure Ledger where
  fired : Nat
  cleared : Nat
  folds : List (Nat × Nat)
deriving DecidableEq, Repr

/-- The ledger after one action taken in configuration `c`. -/
def record (a : Action) (c : Config) (g : Ledger) : Ledger :=
  match a with
  | .isr _ => { g with fired := g.fired + 1 }
  | .stmt =>
    match c.pc with
    | .clear => { g with cleared := g.fired }
    | .xor => { g with folds := g.folds ++ [(g.cleared, g.fired)] }
    | _ => g

/-- The configuration and the ledger after an interleaving. -/
def runActions : List Action → Config → Ledger → Config × Ledger
  | [], c, g => (c, g)
  | a :: rest, c, g => runActions rest (act a c) (record a c g)

/-- An interleaving in which no interrupt is served between a poll's
`sampleWaiting = false` and its `result ^= sample`, that is, while the next
statement is `rotate` or `xor`. -/
def quiet : List Action → Config → Bool
  | [], _ => true
  | .isr t :: rest, c =>
    (c.pc ≠ Pc.rotate && c.pc ≠ Pc.xor) && quiet rest (act (.isr t) c)
  | .stmt :: rest, c => quiet rest (act .stmt c)

/-- The facts about the ledger that every interleaving without an interrupt
between `sampleWaiting = false` and `result ^= sample` maintains; `base` is
the number of firings before the interleaving started. -/
structure LedgerInv (base : Nat) (c : Config) (g : Ledger) : Prop where
  base_le : base ≤ g.fired
  entries : ∀ p ∈ g.folds, p.1 = p.2 ∧ base < p.2 ∧ p.2 ≤ g.fired
  increasing : (g.folds.map Prod.snd).Pairwise (fun x y => x < y)
  fresh : c.st.sampleWaiting = true → base < g.fired ∧ ∀ p ∈ g.folds, p.2 < g.fired
  at_clear : c.pc = Pc.clear → c.st.sampleWaiting = true
  in_window : c.pc = Pc.rotate ∨ c.pc = Pc.xor →
    c.st.sampleWaiting = false ∧ g.cleared = g.fired ∧ base < g.fired ∧
      ∀ p ∈ g.folds, p.2 < g.fired

/-! ## Facts about `rotl` -/

theorem mask_eq_mod (s : Nat) : s &&& (sizeofValue * 8 - 1) = s % 8 :=
  Nat.and_pow_two_sub_one_eq_mod s 3

theorem rotl_def (v s : Nat) :
    rotl v s = if s % 8 = 0 then v
      else ((v <<< (s % 8)) ||| (v >>> (8 - s % 8))) % 256 := by
  have h := mask_eq_mod s
  simp only [sizeofValue] at h
  simp only [rotl, sizeofValue, h]

theorem rotl_mod (v s : Nat) : rotl v s = rotl v (s % 8) := by
  rw [rotl_def, rotl_def, Nat.mod_mod]

theorem rotl_lt (v s : Nat) (hv : v < 256) : rotl v s < 256 := by
  rw [rotl_def]
  split
  · exact hv
  · exact Nat.mod_lt _ (by decide)

set_option maxRecDepth 100000 in
theorem rotl_inverse_table :
    ∀ v < 256, ∀ k < 8, rotl (rotl v k) ((8 - k) % 8) = v := by
  decide

set_option maxRecDepth 1000000 in
theorem rotl_bit_table :
    ∀ v < 256, ∀ k < 8, ∀ i < 8,
      (rotl v k).testBit ((i + k) % 8) = v.testBit i := by
  decide

theorem rotl_shift_fits_int (v k : Nat) (hv : v < 256) (hk : k < 8) :
    v <<< k < 2 ^ 15 := by
  rw [Nat.shiftLeft_eq]
  have h1 : 2 ^ k ≤ 2 ^ 7 := Nat.pow_le_pow_right (n := 2) (by decide) (by omega)
  calc v * 2 ^ k ≤ 255 * 2 ^ 7 := Nat.mul_le_mul (by omega) h1
    _ < 2 ^ 15 := by decide

theorem complement_shift_mod (s : Nat) (hs : s < 2 ^ 32) :
    (8 + 2 ^ 32 - s) % 2 ^ 32 % 8 = (8 - s % 8) % 8 := by
  omega

theorem rotl_bit (v k j : Nat) (hv : v < 256) :
    (rotl v k).testBit j = (decide (j < 8) && v.testBit ((j + 8 - k % 8) % 8)) := by
  rw [rotl_mod]
  by_cases hj : j < 8
  · have hk : k % 8 < 8 := Nat.mod_lt _ (by decide)
    have h := rotl_bit_table v hv (k % 8) hk ((j + 8 - k % 8) % 8)
      (Nat.mod_lt _ (by decide))
    have e : ((j + 8 - k % 8) % 8 + k % 8) % 8 = j := by omega
    rw [e] at h
    simp [h, hj]
  · have h1 : rotl v (k % 8) < 2 ^ j :=
      lt_of_lt_of_le (rotl_lt v _ hv)
        (Nat.pow_le_pow_right (n := 2) (by decide) (by omega : 8 ≤ j))
    simp [Nat.testBit_lt_two_pow h1, hj]

theorem rotl_xor (a b k : Nat) (ha : a < 256) (hb : b < 256) :
    rotl (a ^^^ b) k = rotl a k ^^^ rotl b k := by
  have hab : a ^^^ b < 256 := Nat.xor_lt_two_pow (n := 8) ha hb
  apply Nat.eq_of_testBit_eq
  intro j
  rw [Nat.testBit_xor, rotl_bit _ _ _ hab, rotl_bit _ _ _ ha, rotl_bit _ _ _ hb,
    Nat.testBit_xor]
  cases decide (j < 8) <;> simp

theorem rotl_rotl (v a b : Nat) (hv : v < 256) :
    rotl (rotl v a) b = rotl v (a + b) := by
  apply Nat.eq_of_testBit_eq
  intro j
  rw [rotl_bit _ _ _ (rotl_lt v a hv), rotl_bit _ _ _ hv, rotl_bit _ _ _ hv]
  by_cases hj : j < 8
  · have h1 : (j + 8 - b % 8) % 8 < 8 := Nat.mod_lt _ (by decide)
    have e : ((j + 8 - b % 8) % 8 + 8 - a % 8) % 8 = (j + 8 - (a + b) % 8) % 8 := by
      omega
    simp [hj, h1, e]
  · simp [hj]

theorem rotl_zero_shift (v s : Nat) (h : s % 8 = 0) : rotl v s = v := by
  rw [rotl_def, if_pos h]

/-! ## Facts about the mixing fold -/

theorem mix_nil (a : Nat) : mix a [] = a := rfl

theorem mix_cons (a s : Nat) (w : List Nat) :
    mix a (s :: w) = mix (rotl a 1 ^^^ s) w := rfl

theorem mix_append (a : Nat) (u w : List Nat) :
    mix a (u ++ w) = mix (mix a u) w := by
  simp [mix, List.foldl_append]

theorem mix_lt (w : List Nat) (a : Nat) (ha : a < 256)
    (hw : ∀ s ∈ w, s < 256) : mix a w < 256 := by
  induction w generalizing a with
  | nil => simpa [mix] using ha
  | cons s w ih =>
    rw [mix_cons]
    apply ih
    · exact Nat.xor_lt_two_pow (n := 8) (rotl_lt a 1 ha) (hw s (by simp))
    · intro t ht
      exact hw t (by simp [ht])

theorem mix_xor (w : List Nat) (a b : Nat) (ha : a < 256) (hb : b < 256)
    (hw : ∀ s ∈ w, s < 256) :
    mix (a ^^^ b) w = mix a w ^^^ rotl b w.length := by
  induction w generalizing a b with
  | nil => simp [mix, rotl_zero_shift]
  | cons s w ih =>
    have hs : s < 256 := hw s (by simp)
    have hw2 : ∀ t ∈ w, t < 256 := fun t ht => hw t (by simp [ht])
    have h1 : rotl (a ^^^ b) 1 ^^^ s = (rotl a 1 ^^^ s) ^^^ rotl b 1 := by
      rw [rotl_xor a b 1 ha hb, Nat.xor_assoc, Nat.xor_comm (rotl b 1) s,
        ← Nat.xor_assoc]
    rw [mix_cons, mix_cons, h1,
      ih _ _ (Nat.xor_lt_two_pow (n := 8) (rotl_lt a 1 ha) hs) (rotl_lt b 1 hb) hw2,
      rotl_rotl b 1 _ hb, List.length_cons, Nat.add_comm 1]

theorem mix_eight (w : List Nat) (a : Nat) (ha : a < 256)
    (hw : ∀ s ∈ w, s < 256) (hlen : w.length = 8) :
    mix a w = a ^^^ mix 0 w := by
  have h := mix_xor w 0 a (by decide) ha hw
  rw [Nat.zero_xor, hlen, rotl_zero_shift a 8 (by decide)] at h
  rw [h, Nat.xor_comm]

/-! ## Facts about single steps -/

theorem consumeSample_eq (st : State) (hs : st.sample < 256) (hr : st.result < 256)
    (hc : st.currentBit < 255) :
    consumeSample st =
      { sample := st.sample, sampleWaiting := false,
        result := rotl st.result 1 ^^^ st.sample,
        currentBit := st.currentBit + 1 } := by
  have h1 : rotl st.result 1 ^^^ st.sample < 256 :=
    Nat.xor_lt_two_pow (n := 8) (rotl_lt _ 1 hr) hs
  simp only [consumeSample, Nat.mod_eq_of_lt h1,
    Nat.mod_eq_of_lt (by omega : st.currentBit + 1 < 256)]

theorem loopBody_idle (st : State) (h : st.sampleWaiting = false) :
    loopBody st = (st, none) := by
  simp [loopBody, h]

theorem loopBody_continue (st : State) (h : st.sampleWaiting = true)
    (hc : st.currentBit < 7) : loopBody st = (consumeSample st, none) := by
  have h1 : (consumeSample st).currentBit = st.currentBit + 1 := by
    simp only [consumeSample]
    omega
  simp only [loopBody, h, if_true, h1]
  rw [if_neg (by omega)]

theorem loopBody_return (st : State) (h : st.sampleWaiting = true)
    (hc : st.currentBit = 7) :
    loopBody st =
      ({ consumeSample st with currentBit := 0 }, some (consumeSample st).result) := by
  have h1 : (consumeSample st).currentBit = 8 := by
    simp only [consumeSample, hc]
  simp only [loopBody, h, if_true, h1]
  rw [if_pos (by omega)]

theorem step_sample (e : Event) (st : State) :
    (step e st).sample = match e with
      | .wdt c => c % 256
      | .poll => st.sample := by
  cases e with
  | wdt c => rfl
  | poll =>
    simp only [step, loopBody]
    split
    · split <;> rfl
    · rfl

theorem step_flag (e : Event) (st : State) :
    (step e st).sampleWaiting = match e with
      | .wdt _ => true
      | .poll => false := by
  cases e with
  | wdt c => rfl
  | poll =>
    simp only [step, loopBody]
    split
    · split <;> rfl
    · next h => simpa using h

theorem runEvents_nil (st : State) : runEvents [] st = st := rfl

theorem runEvents_cons (e : Event) (evs : List Event) (st : State) :
    runEvents (e :: evs) st = runEvents evs (step e st) := rfl

theorem runEvents_append (xs ys : List Event) (st : State) :
    runEvents (xs ++ ys) st = runEvents ys (runEvents xs st) := by
  simp [runEvents, List.foldl_append]

theorem samplesSeen_append (xs ys : List Event) (st : State) :
    samplesSeen (xs ++ ys) st
      = samplesSeen xs st ++ samplesSeen ys (runEvents xs st) := by
  induction xs generalizing st with
  | nil => simp [samplesSeen, runEvents]
  | cons e xs ih =>
    simp only [List.cons_append, samplesSeen, runEvents_cons]
    split <;> simp [ih]

theorem samplesSeen_congr (evs : List Event) (st st' : State)
    (hs : st.sample = st'.sample) (hf : st.sampleWaiting = st'.sampleWaiting) :
    samplesSeen evs st = samplesSeen evs st' := by
  induction evs generalizing st st' with
  | nil => rfl
  | cons e evs ih =>
    have h1 : (step e st).sample = (step e st').sample := by
      rw [step_sample, step_sample]
      cases e <;> simp [hs]
    have h2 : (step e st).sampleWaiting = (step e st').sampleWaiting := by
      rw [step_flag, step_flag]
    simp only [samplesSeen, hs, hf, ih _ _ h1 h2]

theorem samplesSeen_lt (evs : List Event) (st : State) (hs : st.sample < 256) :
    ∀ s ∈ samplesSeen evs st, s < 256 := by
  induction evs generalizing st with
  | nil => simp [samplesSeen]
  | cons e evs ih =>
    have h1 : (step e st).sample < 256 := by
      rw [step_sample]
      cases e with
      | wdt c => exact Nat.mod_lt _ (by decide)
      | poll => exact hs
    intro s
    simp only [samplesSeen]
    split
    · intro h
      rcases List.mem_cons.mp h with h | h
      · exact h ▸ hs
      · exact ih _ h1 s h
    · exact ih _ h1 s

/-! ## Facts about the loop of `generateRandom` -/

theorem samplesSeen_wdt (c : Nat) (evs : List Event) (st : State) :
    samplesSeen (Event.wdt c :: evs) st = samplesSeen evs (WDT_vect c st) := by
  simp [samplesSeen, step]

theorem samplesSeen_poll_set (evs : List Event) (st : State)
    (h : st.sampleWaiting = true) :
    samplesSeen (Event.poll :: evs) st
      = st.sample :: samplesSeen evs (loopBody st).1 := by
  simp [samplesSeen, step, h]

theorem samplesSeen_poll_unset (evs : List Event) (st : State)
    (h : st.sampleWaiting = false) :
    samplesSeen (Event.poll :: evs) st = samplesSeen evs st := by
  simp [samplesSeen, step, h, loopBody_idle]

theorem loop_blocked (evs : List Event) (st : State)
    (h : st.currentBit + (samplesSeen evs st).length < 8) :
    generateRandomLoop evs st = .blocked (runEvents evs st) ∧
      (runEvents evs st).currentBit = st.currentBit + (samplesSeen evs st).length := by
  induction evs generalizing st with
  | nil => simp [generateRandomLoop, runEvents, samplesSeen]
  | cons e evs ih =>
    cases e with
    | wdt c =>
      rw [samplesSeen_wdt] at h ⊢
      have := ih (WDT_vect c st) h
      simpa [generateRandomLoop, runEvents_cons, step] using this
    | poll =>
      cases hf : st.sampleWaiting with
      | true =>
        rw [samplesSeen_poll_set _ _ hf] at h ⊢
        simp only [List.length_cons] at h ⊢
        have hlb := loopBody_continue st hf (by omega)
        rw [hlb] at h ⊢
        dsimp only at h ⊢
        have hc : (consumeSample st).currentBit = st.currentBit + 1 := by
          simp only [consumeSample]
          omega
        have := ih (consumeSample st) (by omega)
        simp only [generateRandomLoop, runEvents_cons, step, hlb]
        refine ⟨this.1, ?_⟩
        rw [this.2, hc]
        omega
      | false =>
        rw [samplesSeen_poll_unset _ _ hf] at h ⊢
        have hlb := loopBody_idle st hf
        have := ih st h
        simpa [generateRandomLoop, runEvents_cons, step, hlb] using this

theorem run_result (evs : List Event) (st : State)
    (hs : st.sample < 256) (hr : st.result < 256)
    (h : st.currentBit + (samplesSeen evs st).length < 8) :
    (runEvents evs st).result = mix st.result (samplesSeen evs st) ∧
      (runEvents evs st).result < 256 ∧ (runEvents evs st).sample < 256 := by
  induction evs generalizing st with
  | nil => simp [runEvents, samplesSeen, mix, hs, hr]
  | cons e evs ih =>
    cases e with
    | wdt c =>
      rw [samplesSeen_wdt] at h ⊢
      have := ih (WDT_vect c st) (Nat.mod_lt _ (by decide)) hr h
      simpa [runEvents_cons, step] using this
    | poll =>
      cases hf : st.sampleWaiting with
      | true =>
        rw [samplesSeen_poll_set _ _ hf] at h ⊢
        simp only [List.length_cons] at h
        have hlb := loopBody_continue st hf (by omega)
        rw [hlb] at h ⊢
        dsimp only at h ⊢
        have hce := consumeSample_eq st hs hr (by omega)
        have hx : rotl st.result 1 ^^^ st.sample < 256 :=
          Nat.xor_lt_two_pow (n := 8) (rotl_lt _ 1 hr) hs
        have := ih (consumeSample st) (by rw [hce]; exact hs) (by rw [hce]; exact hx)
          (by rw [hce] at h ⊢; simp only at h ⊢; omega)
        simp only [runEvents_cons, step, hlb, mix_cons]
        rw [hce] at this ⊢
        exact this
      | false =>
        rw [samplesSeen_poll_unset _ _ hf] at h ⊢
        have hlb := loopBody_idle st hf
        have := ih st hs hr h
        simpa [runEvents_cons, step, hlb] using this

theorem loop_append (xs ys : List Event) (st st1 : State)
    (h : generateRandomLoop xs st = .blocked st1) :
    generateRandomLoop (xs ++ ys) st = generateRandomLoop ys st1 := by
  induction xs generalizing st with
  | nil =>
    simp only [generateRandomLoop, Outcome.blocked.injEq] at h
    simp [h]
  | cons e xs ih =>
    cases e with
    | wdt c =>
      simp only [generateRandomLoop, List.cons_append] at h ⊢
      exact ih _ h
    | poll =>
      simp only [generateRandomLoop, List.cons_append] at h ⊢
      split at h
      · exact absurd h (by simp)
      · exact ih _ h

theorem samplesSeen_split (evs : List Event) (st : State) (n : Nat)
    (h : n < (samplesSeen evs st).length) :
    ∃ pre rest, evs = pre ++ Event.poll :: rest ∧
      (samplesSeen pre st).length = n ∧
      (runEvents pre st).sampleWaiting = true := by
  induction evs generalizing st n with
  | nil => simp [samplesSeen] at h
  | cons e evs ih =>
    by_cases hc : e = Event.poll ∧ st.sampleWaiting = true
    · cases n with
      | zero => exact ⟨[], evs, by simp [hc.1], by simp [samplesSeen], by simpa [runEvents] using hc.2⟩
      | succ m =>
        simp only [samplesSeen, if_pos hc, List.length_cons] at h
        obtain ⟨pre, rest, h1, h2, h3⟩ := ih (step e st) m (by omega)
        refine ⟨e :: pre, rest, by simp [h1], ?_, by simpa [runEvents_cons] using h3⟩
        simp only [samplesSeen, if_pos hc, List.length_cons, h2]
    · simp only [samplesSeen, if_neg hc] at h
      obtain ⟨pre, rest, h1, h2, h3⟩ := ih (step e st) n h
      refine ⟨e :: pre, rest, by simp [h1], ?_, by simpa [runEvents_cons] using h3⟩
      simp only [samplesSeen, if_neg hc, h2]

theorem loop_returns (evs : List Event) (st : State)
    (hs : st.sample < 256) (hr : st.result < 256) (hc : st.currentBit ≤ 7)
    (h : 8 ≤ st.currentBit + (samplesSeen evs st).length) :
    ∃ pre rest st2,
      evs = pre ++ Event.poll :: rest ∧
      st.currentBit + (samplesSeen pre st).length = 7 ∧
      (runEvents pre st).sampleWaiting = true ∧
      generateRandomLoop pre st = .blocked (runEvents pre st) ∧
      generateRandomLoop evs st
        = .returned (mix st.result ((samplesSeen evs st).take (8 - st.currentBit)))
            st2 rest ∧
      st2 = { sample := (runEvents pre st).sample, sampleWaiting := false,
              result := mix st.result ((samplesSeen evs st).take (8 - st.currentBit)),
              currentBit := 0 } ∧
      samplesSeen rest st2 = (samplesSeen evs st).drop (8 - st.currentBit) := by
  obtain ⟨pre, rest, hsplit, hlen, hflag⟩ :=
    samplesSeen_split evs st (7 - st.currentBit) (by omega)
  have hb := loop_blocked pre st (by omega)
  have hrr := run_result pre st hs hr (by omega)
  have hcb : (runEvents pre st).currentBit = 7 := by
    rw [hb.2]
    omega
  have hlb := loopBody_return (runEvents pre st) hflag hcb
  have hce := consumeSample_eq (runEvents pre st) hrr.2.2 hrr.2.1 (by omega)
  have hseen : samplesSeen evs st
      = (samplesSeen pre st ++ [(runEvents pre st).sample])
        ++ samplesSeen rest (loopBody (runEvents pre st)).1 := by
    rw [hsplit, samplesSeen_append, samplesSeen_poll_set _ _ hflag]
    simp
  have hlen2 : (samplesSeen pre st ++ [(runEvents pre st).sample]).length
      = 8 - st.currentBit := by
    simp only [List.length_append, List.length_singleton, hlen]
    omega
  have htake : (samplesSeen evs st).take (8 - st.currentBit)
      = samplesSeen pre st ++ [(runEvents pre st).sample] := by
    rw [hseen]
    exact List.take_left' hlen2
  have hdrop : (samplesSeen evs st).drop (8 - st.currentBit)
      = samplesSeen rest (loopBody (runEvents pre st)).1 := by
    rw [hseen]
    exact List.drop_left' hlen2
  have hval : mix st.result ((samplesSeen evs st).take (8 - st.currentBit))
      = rotl (runEvents pre st).result 1 ^^^ (runEvents pre st).sample := by
    rw [htake, mix_append, ← hrr.1]
    rfl
  have hst2 : (loopBody (runEvents pre st)).1
      = { sample := (runEvents pre st).sample, sampleWaiting := false,
          result := mix st.result ((samplesSeen evs st).take (8 - st.currentBit)),
          currentBit := 0 } := by
    rw [hlb, hce, hval]
  refine ⟨pre, rest, _, hsplit, by omega, hflag, hb.1, ?_, rfl, ?_⟩
  · conv_lhs => rw [hsplit]
    rw [loop_append pre _ st _ hb.1]
    simp only [generateRandomLoop, hlb, hce, hval]
  · rw [hdrop, hst2]

theorem call_returns (evs : List Event) (st : State)
    (hs : st.sample < 256) (hr : st.result < 256)
    (h : 8 ≤ (samplesSeen evs st).length) :
    ∃ pre rest st2,
      evs = pre ++ Event.poll :: rest ∧
      (samplesSeen pre st).length = 7 ∧
      generateRandom evs st
        = .returned (mix st.result ((samplesSeen evs st).take 8)) st2 rest ∧
      st2.sample < 256 ∧ st2.sampleWaiting = false ∧
      st2.result = mix st.result ((samplesSeen evs st).take 8) ∧
      st2.currentBit = 0 ∧
      samplesSeen rest st2 = (samplesSeen evs st).drop 8 := by
  have hcg : ∀ l, samplesSeen l { st with currentBit := 0 } = samplesSeen l st :=
    fun l => samplesSeen_congr l _ _ rfl rfl
  have h0 := loop_returns evs { st with currentBit := 0 } hs hr (by simp)
    (by simpa [hcg] using h)
  obtain ⟨pre, rest, st2, h1, h2, _, _, h5, h6, h7⟩ := h0
  simp only [hcg, Nat.zero_add, Nat.sub_zero] at h1 h2 h5 h6 h7
  have hlt : (runEvents pre { st with currentBit := 0 }).sample < 256 :=
    (run_result pre { st with currentBit := 0 } hs hr
      (by simp only [hcg, Nat.zero_add]; omega)).2.2
  refine ⟨pre, rest, st2, h1, h2, h5, ?_, ?_, ?_, ?_, h7⟩
  · rw [h6]; exact hlt
  · rw [h6]
  · rw [h6]
  · rw [h6]

theorem two_calls (evs : List Event) (st : State)
    (hs : st.sample < 256) (hr : st.result < 256)
    (h : 16 ≤ (samplesSeen evs st).length) :
    ∃ r1 st1 rest1 r2 st2 rest2,
      generateRandom evs st = .returned r1 st1 rest1 ∧ st1.result = r1 ∧
      generateRandom rest1 st1 = .returned r2 st2 rest2 ∧ st2.result = r2 ∧
      r1 = mix st.result ((samplesSeen evs st).take 8) ∧ r1 < 256 ∧
      (samplesSeen rest1 st1).take 8 = ((samplesSeen evs st).drop 8).take 8 ∧
      r2 = mix r1 ((samplesSeen rest1 st1).take 8) ∧
      r2 = r1 ^^^ mix 0 ((samplesSeen rest1 st1).take 8) := by
  obtain ⟨_, rest1, st1, _, _, h3, h4, _, h6, _, h8⟩ :=
    call_returns evs st hs hr (by omega)
  have hr1 : mix st.result ((samplesSeen evs st).take 8) < 256 :=
    mix_lt _ _ hr (fun s hm => samplesSeen_lt evs st hs s (List.mem_of_mem_take hm))
  have hlen : 8 ≤ (samplesSeen rest1 st1).length := by
    rw [h8, List.length_drop]
    omega
  obtain ⟨_, rest2, st2, _, _, k3, _, _, k6, _, _⟩ :=
    call_returns rest1 st1 h4 (by rw [h6]; exact hr1) hlen
  have hw : ∀ s ∈ (samplesSeen rest1 st1).take 8, s < 256 :=
    fun s hm => samplesSeen_lt rest1 st1 h4 s (List.mem_of_mem_take hm)
  have hl8 : ((samplesSeen rest1 st1).take 8).length = 8 := by
    rw [List.length_take]
    omega
  rw [h6] at k3 k6
  refine ⟨_, st1, rest1, _, st2, rest2, h3, h6, k3, k6, rfl, hr1, by rw [h8], rfl, ?_⟩
  exact mix_eight _ _ hr1 hw hl8

theorem xor_eq_left_iff (r x : Nat) : r ^^^ x = r ↔ x = 0 := by
  conv_lhs => rhs; rw [← Nat.xor_zero r]
  exact Nat.xor_right_inj

theorem rotl_one_lt (v : Nat) : rotl v 1 < 256 := by
  rw [rotl_def, if_neg (by decide)]
  exact Nat.mod_lt _ (by decide)

theorem loop_idle (n : Nat) (st : State) (h : st.sampleWaiting = false) :
    generateRandomLoop (List.replicate n Event.poll) st = .blocked st := by
  induction n with
  | zero => rfl
  | succ n ih =>
    simp only [List.replicate_succ, generateRandomLoop, loopBody_idle st h]
    exact ih

theorem run_idle (n : Nat) (st : State) (h : st.sampleWaiting = false) :
    runEvents (List.replicate n Event.poll) st = st := by
  induction n with
  | zero => rfl
  | succ n ih =>
    simp only [List.replicate_succ, runEvents_cons, step, loopBody_idle st h]
    exact ih

theorem flag_after_wdt (evs : List Event) (c : Nat) (st : State) :
    (runEvents (evs ++ [Event.wdt c]) st).sampleWaiting = true := by
  rw [runEvents_append, runEvents_cons, runEvents_nil, step_flag]

theorem flag_after_poll (evs : List Event) (st : State) :
    (runEvents (evs ++ [Event.poll]) st).sampleWaiting = false := by
  rw [runEvents_append, runEvents_cons, runEvents_nil, step_flag]

theorem firedSinceConsume_eq (evs : List Event) (st : State) (f : Bool)
    (h : f = st.sampleWaiting) :
    firedSinceConsume evs st f = (runEvents evs st).sampleWaiting := by
  induction evs generalizing st f with
  | nil => simpa [firedSinceConsume, runEvents] using h
  | cons e evs ih =>
    cases e with
    | wdt c =>
      simp only [firedSinceConsume, runEvents_cons]
      exact ih _ _ (by rw [step_flag])
    | poll =>
      simp only [firedSinceConsume, runEvents_cons]
      apply ih
      rw [step_flag, h]
      cases st.sampleWaiting <;> rfl

theorem flag_of_no_consuming_poll (pre post : List Event) (c : Nat) (st : State)
    (h : ∀ p1 p2, post = p1 ++ Event.poll :: p2 →
      (runEvents (pre ++ Event.wdt c :: p1) st).sampleWaiting = false) :
    (runEvents (pre ++ Event.wdt c :: post) st).sampleWaiting = true := by
  induction post using List.reverseRecOn with
  | nil => exact flag_after_wdt pre c st
  | append_singleton q e ih =>
    cases e with
    | wdt d =>
      have e1 : pre ++ Event.wdt c :: (q ++ [Event.wdt d])
          = (pre ++ Event.wdt c :: q) ++ [Event.wdt d] := by simp
      rw [e1]
      exact flag_after_wdt _ d st
    | poll =>
      have h1 := h q [] rfl
      have h2 := ih (fun p1 p2 hq => h p1 (p2 ++ [Event.poll]) (by simp [hq]))
      rw [h1] at h2
      exact absurd h2 (by simp)

/-! ## Facts about the closed form and the bijections of the mixer -/

theorem mix_cons_split (a s : Nat) (w : List Nat) (ha : a < 256) (hs : s < 256)
    (hw : ∀ t ∈ w, t < 256) :
    mix a (s :: w) = mix (rotl a 1) w ^^^ rotl s w.length := by
  rw [mix_cons, mix_xor w _ _ (rotl_lt a 1 ha) hs hw]

theorem mix_zero_cons (s : Nat) (w : List Nat) (hs : s < 256)
    (hw : ∀ t ∈ w, t < 256) :
    mix 0 (s :: w) = rotl s w.length ^^^ mix 0 w := by
  have e0 : rotl 0 1 = 0 := by decide
  have h := mix_xor w 0 s (by decide) hs hw
  rw [Nat.zero_xor] at h
  rw [mix_cons, e0, Nat.zero_xor, h, Nat.xor_comm]

theorem mix_closed (a s0 s1 s2 s3 s4 s5 s6 s7 : Nat) (ha : a < 256)
    (h0 : s0 < 256) (h1 : s1 < 256) (h2 : s2 < 256) (h3 : s3 < 256)
    (h4 : s4 < 256) (h5 : s5 < 256) (h6 : s6 < 256) (h7 : s7 < 256) :
    mix a [s0, s1, s2, s3, s4, s5, s6, s7]
      = a ^^^ rotl s0 7 ^^^ rotl s1 6 ^^^ rotl s2 5 ^^^ rotl s3 4 ^^^ rotl s4 3
          ^^^ rotl s5 2 ^^^ rotl s6 1 ^^^ s7 := by
  have w8 : ∀ t ∈ ([] : List Nat), t < 256 := fun t ht => absurd ht (List.not_mem_nil t)
  have w7 : ∀ t ∈ [s7], t < 256 := List.forall_mem_cons.mpr ⟨h7, w8⟩
  have w6 : ∀ t ∈ [s6, s7], t < 256 := List.forall_mem_cons.mpr ⟨h6, w7⟩
  have w5 : ∀ t ∈ [s5, s6, s7], t < 256 := List.forall_mem_cons.mpr ⟨h5, w6⟩
  have w4 : ∀ t ∈ [s4, s5, s6, s7], t < 256 := List.forall_mem_cons.mpr ⟨h4, w5⟩
  have w3 : ∀ t ∈ [s3, s4, s5, s6, s7], t < 256 := List.forall_mem_cons.mpr ⟨h3, w4⟩
  have w2 : ∀ t ∈ [s2, s3, s4, s5, s6, s7], t < 256 :=
    List.forall_mem_cons.mpr ⟨h2, w3⟩
  have w1 : ∀ t ∈ [s1, s2, s3, s4, s5, s6, s7], t < 256 :=
    List.forall_mem_cons.mpr ⟨h1, w2⟩
  have w0 : ∀ t ∈ [s0, s1, s2, s3, s4, s5, s6, s7], t < 256 :=
    List.forall_mem_cons.mpr ⟨h0, w1⟩
  rw [mix_eight _ a ha w0 rfl, mix_zero_cons s0 _ h0 w1, mix_zero_cons s1 _ h1 w2,
    mix_zero_cons s2 _ h2 w3, mix_zero_cons s3 _ h3 w4, mix_zero_cons s4 _ h4 w5,
    mix_zero_cons s5 _ h5 w6, mix_zero_cons s6 _ h6 w7, mix_zero_cons s7 _ h7 w8,
    mix_nil, Nat.xor_zero]
  simp only [List.length_cons, List.length_nil]
  rw [rotl_zero_shift s7 0 (by decide)]
  ac_rfl

theorem feed_cons (s : Nat) (w : List Nat) :
    feed (s :: w) = Event.wdt s :: Event.poll :: feed w := by
  simp [feed, List.flatMap_cons]

theorem samplesSeen_feed (w : List Nat) (st : State) :
    samplesSeen (feed w) st = w.map (fun s => s % 256) := by
  induction w generalizing st with
  | nil => rfl
  | cons s w ih =>
    rw [feed_cons, samplesSeen_wdt, samplesSeen_poll_set _ _ rfl, ih]
    rfl

theorem samplesSeen_feed_bytes (w : List Nat) (st : State) (hw : ∀ s ∈ w, s < 256) :
    samplesSeen (feed w) st = w := by
  rw [samplesSeen_feed]
  calc w.map (fun s => s % 256) = w.map id :=
        List.map_congr_left (fun s hs => Nat.mod_eq_of_lt (hw s hs))
    _ = w := List.map_id w

theorem returnedByte_eq (a : Nat) (w : List Nat) (ha : a < 256)
    (hw : ∀ s ∈ w, s < 256) (hlen : w.length = 8) :
    returnedByte a w = some (mix a w) := by
  have hseen := samplesSeen_feed_bytes w
    { sample := 0, sampleWaiting := false, result := a, currentBit := 0 } hw
  obtain ⟨_, rest, st2, _, _, h3, _⟩ := call_returns (feed w)
    { sample := 0, sampleWaiting := false, result := a, currentBit := 0 }
    (Nat.zero_lt_succ 255) ha (by rw [hseen, hlen])
  rw [hseen, ← hlen, List.take_length] at h3
  simp only [returnedByte, h3]

theorem rotl_cancel (x n : Nat) (hx : x < 256) :
    rotl (rotl x n) (8 - n % 8) = x := by
  rw [rotl_rotl x _ _ hx]
  exact rotl_zero_shift x _ (by omega)

theorem rotl_cancel_left (x n : Nat) (hx : x < 256) :
    rotl (rotl x (8 - n % 8)) n = x := by
  rw [rotl_rotl x _ _ hx]
  exact rotl_zero_shift x _ (by omega)

theorem rotl_inj (x y n : Nat) (hx : x < 256) (hy : y < 256)
    (h : rotl x n = rotl y n) : x = y := by
  rw [← rotl_cancel x n hx, ← rotl_cancel y n hy, h]

theorem mix_set (a x : Nat) (w : List Nat) (i : Nat) (ha : a < 256) (hx : x < 256)
    (hw : ∀ s ∈ w, s < 256) (hi : i < w.length) :
    mix a (w.set i x)
      = mix (rotl (mix a (w.take i)) 1) (w.drop (i + 1))
          ^^^ rotl x (w.drop (i + 1)).length := by
  have h1 : mix a (w.take i) < 256 :=
    mix_lt _ _ ha (fun s hs => hw s (List.mem_of_mem_take hs))
  rw [List.set_eq_take_cons_drop x hi, mix_append,
    mix_cons_split _ x _ h1 hx (fun s hs => hw s (List.mem_of_mem_drop hs))]

theorem set_lt (w : List Nat) (i x : Nat) (hx : x < 256) (hw : ∀ s ∈ w, s < 256) :
    ∀ s ∈ w.set i x, s < 256 := by
  intro s hs
  rcases List.mem_or_eq_of_mem_set hs with h | h
  · exact hw s h
  · exact h ▸ hx

/-! ## Facts about the preemptive machine -/

theorem execStmt_idle (st : State) (h : st.sampleWaiting = false) :
    execStmt ⟨st, Pc.test⟩ = (⟨(loopBody st).1, Pc.test⟩, (loopBody st).2) := by
  simp [execStmt, loopBody, h]

theorem execStmt_poll (st : State) (h : st.sampleWaiting = true) :
    execStmt (act .stmt (act .stmt (act .stmt (act .stmt ⟨st, Pc.test⟩))))
      = (⟨(loopBody st).1, Pc.test⟩, (loopBody st).2) := by
  simp only [act, execStmt, loopBody, consumeSample, h, if_true]
  split <;> rfl

theorem inv_init (c : Config) (g : Ledger) (hpc : c.pc = Pc.test)
    (hf : c.st.sampleWaiting = false) (hg : g.folds = []) :
    LedgerInv g.fired c g where
  base_le := Nat.le_refl _
  entries := by simp [hg]
  increasing := by simp [hg]
  fresh := by simp [hf]
  at_clear := by simp [hpc]
  in_window := by simp [hpc]

theorem inv_isr (base t : Nat) (c : Config) (g : Ledger) (hI : LedgerInv base c g)
    (hq : c.pc ≠ Pc.rotate ∧ c.pc ≠ Pc.xor) :
    LedgerInv base (act (.isr t) c) (record (.isr t) c g) where
  base_le := Nat.le_succ_of_le hI.base_le
  entries := fun p hp =>
    ⟨(hI.entries p hp).1, (hI.entries p hp).2.1, Nat.le_succ_of_le (hI.entries p hp).2.2⟩
  increasing := hI.increasing
  fresh := fun _ =>
    ⟨Nat.lt_succ_of_le hI.base_le, fun p hp => Nat.lt_succ_of_le (hI.entries p hp).2.2⟩
  at_clear := fun _ => rfl
  in_window := fun h => by
    rcases h with h | h
    · exact absurd h hq.1
    · exact absurd h hq.2

theorem inv_stmt (base : Nat) (c : Config) (g : Ledger) (hI : LedgerInv base c g) :
    LedgerInv base (act .stmt c) (record .stmt c g) := by
  obtain ⟨st, pc⟩ := c
  cases pc with
  | test =>
    cases hf : st.sampleWaiting with
    | true =>
      have e : act .stmt ⟨st, Pc.test⟩ = ⟨st, Pc.clear⟩ := by simp [act, execStmt, hf]
      rw [e]
      exact ⟨hI.base_le, hI.entries, hI.increasing, hI.fresh, fun _ => hf,
        fun h => by simp at h⟩
    | false =>
      have e : act .stmt ⟨st, Pc.test⟩ = ⟨st, Pc.test⟩ := by simp [act, execStmt, hf]
      rw [e]
      exact hI
  | clear =>
    have hf := hI.at_clear rfl
    have hfr := hI.fresh hf
    exact ⟨hI.base_le, hI.entries, hI.increasing, fun h => by simp [act, execStmt] at h,
      fun h => by simp [act, execStmt] at h,
      fun _ => ⟨rfl, rfl, hfr.1, hfr.2⟩⟩
  | rotate =>
    have hw := hI.in_window (Or.inl rfl)
    exact ⟨hI.base_le, hI.entries, hI.increasing,
      fun h => by
        have h2 : st.sampleWaiting = true := h
        rw [hw.1] at h2
        exact absurd h2 (by simp),
      fun h => by simp [act, execStmt] at h,
      fun _ => hw⟩
  | xor =>
    have hw := hI.in_window (Or.inr rfl)
    refine ⟨hI.base_le, ?_, ?_, ?_, fun h => by simp [act, execStmt] at h,
      fun h => by simp [act, execStmt] at h⟩
    · intro p hp
      simp only [record, List.mem_append, List.mem_singleton] at hp
      rcases hp with hp | hp
      · exact hI.entries p hp
      · rw [hp]
        exact ⟨hw.2.1, hw.2.2.1, Nat.le_refl _⟩
    · simp only [record, List.map_append, List.map_cons, List.map_nil]
      rw [List.pairwise_append]
      refine ⟨hI.increasing, List.pairwise_singleton _ _, ?_⟩
      intro x hx y hy
      rw [List.mem_singleton] at hy
      obtain ⟨p, hp, hpx⟩ := List.mem_map.mp hx
      rw [hy, ← hpx]
      exact hw.2.2.2 p hp
    · intro h
      have h2 : st.sampleWaiting = true := h
      rw [hw.1] at h2
      exact absurd h2 (by simp)
  | count =>
    refine ⟨hI.base_le, hI.entries, hI.increasing, ?_, ?_, ?_⟩
    · intro h
      have h2 : st.sampleWaiting = true := by
        simp only [act, execStmt] at h
        split at h <;> exact h
      exact hI.fresh h2
    · intro h
      simp only [act, execStmt] at h
      split at h <;> simp at h
    · intro h
      simp only [act, execStmt] at h
      split at h <;> simp at h

theorem inv_run (base : Nat) (acts : List Action) (c : Config) (g : Ledger)
    (hI : LedgerInv base c g) (hq : quiet acts c = true) :
    LedgerInv base (runActions acts c g).1 (runActions acts c g).2 := by
  induction acts generalizing c g with
  | nil => exact hI
  | cons a acts ih =>
    cases a with
    | isr t =>
      simp only [quiet, Bool.and_eq_true, decide_eq_true_eq] at hq
      exact ih _ _ (inv_isr base t c g hI hq.1) hq.2
    | stmt =>
      simp only [quiet] at hq
      exact ih _ _ (inv_stmt base c g hI) hq

/-! ## The claims -/

/-- C1: `rotl` is undone by the complementary shift.  For every 8-bit `v` and
every shift `s` of the 32-bit unsigned shift type,
`rotl (rotl v s) (8 - s) = v`, where `8 - s` is evaluated in that unsigned
type and so wraps modulo `2 ^ 32` when `s > 8`. -/
theorem rotl_complement_inverse (v s : Nat) (hv : v < 256) (hs : s < 2 ^ 32) :
    rotl (rotl v s) ((8 + 2 ^ 32 - s) % 2 ^ 32) = v := by
  rw [rotl_mod v s, rotl_mod _ ((8 + 2 ^ 32 - s) % 2 ^ 32), complement_shift_mod s hs]
  exact rotl_inverse_table v hv (s % 8) (Nat.mod_lt _ (by decide))

theorem rotl_complement_inverse_witness :
    129 < 256 ∧ 4294967295 < 2 ^ 32 ∧
      rotl (rotl 129 4294967295) ((8 + 2 ^ 32 - 4294967295) % 2 ^ 32) = 129 :=
  ⟨by decide, by decide, rotl_complement_inverse 129 4294967295 (by decide) (by decide)⟩

/-- C2: `rotl` is a circular left rotation of the byte.  For every 8-bit `v`
and every shift `s`, with `k = s % 8`, the result is below `256` and bit
`(i + k) % 8` of `rotl v s` is bit `i` of `v`, for every bit position `i`
in `0..7`. -/
theorem rotl_is_circular_rotation (v s : Nat) (hv : v < 256) :
    rotl v s < 256 ∧
      ∀ i < 8, (rotl v s).testBit ((i + s % 8) % 8) = v.testBit i := by
  refine ⟨rotl_lt v s hv, ?_⟩
  intro i hi
  rw [rotl_mod v s]
  exact rotl_bit_table v hv (s % 8) (Nat.mod_lt _ (by decide)) i hi

theorem rotl_is_circular_rotation_witness :
    129 < 256 ∧ rotl 129 11 < 256 ∧
      ∀ i < 8, (rotl 129 11).testBit ((i + 11 % 8) % 8) = (129 : Nat).testBit i :=
  ⟨by decide, rotl_is_circular_rotation 129 11 (by decide)⟩

/-- C3: one call of `generateRandom` whose consuming polls read the samples
`s0..s7`, in that order, returns the fold `a8` with
`a(i+1) = rotl (a i) 1 XOR s i` started from the accumulator `a0` the call
found; the returned byte is determined by `a0` and those eight samples.
Starting from accumulator `0`, the samples `1, 2, 4, 8, 16, 32, 64, 128`
give the byte `0`. -/
theorem generateRandom_returns_fold :
    (∀ (evs : List Event) (st : State), st.sample < 256 → st.result < 256 →
      8 ≤ (samplesSeen evs st).length →
      ∃ st2 rest, generateRandom evs st
        = .returned (mix st.result ((samplesSeen evs st).take 8)) st2 rest) ∧
    (∀ a s0 s1 s2 s3 s4 s5 s6 s7 : Nat, mix a [s0, s1, s2, s3, s4, s5, s6, s7] =
      rotl (rotl (rotl (rotl (rotl (rotl (rotl (rotl a 1 ^^^ s0) 1 ^^^ s1) 1 ^^^ s2) 1
        ^^^ s3) 1 ^^^ s4) 1 ^^^ s5) 1 ^^^ s6) 1 ^^^ s7) ∧
    samplesSeen (feed [1, 2, 4, 8, 16, 32, 64, 128]) initState
      = [1, 2, 4, 8, 16, 32, 64, 128] ∧
    generateRandom (feed [1, 2, 4, 8, 16, 32, 64, 128]) initState
      = .returned 0 ⟨128, false, 0, 0⟩ [] := by
  refine ⟨?_, ?_, by decide, by decide⟩
  · intro evs st hs hr h
    obtain ⟨_, rest, st2, _, _, h3, _⟩ := call_returns evs st hs hr h
    exact ⟨st2, rest, h3⟩
  · intros
    rfl

theorem generateRandom_returns_fold_witness :
    8 ≤ (samplesSeen (Event.poll :: feed [1, 4, 1, 5, 9, 2, 6, 5]) ⟨7, true, 200, 3⟩).length ∧
    ∃ st2 rest,
      generateRandom (Event.poll :: feed [1, 4, 1, 5, 9, 2, 6, 5]) ⟨7, true, 200, 3⟩
        = .returned (mix 200 [7, 1, 4, 1, 5, 9, 2, 6]) st2 rest :=
  ⟨by decide,
    generateRandom_returns_fold.1 (Event.poll :: feed [1, 4, 1, 5, 9, 2, 6, 5])
      ⟨7, true, 200, 3⟩ (by decide) (by decide) (by decide)⟩

/-- C4, as stated, fails: two consecutive calls fed the distinct windows
`1, 2, 4, 8, 16, 32, 64, 128` and `0, 0, 0, 0, 0, 0, 0, 0`, from
accumulator `0`, both return `0`. -/
theorem distinct_windows_same_output :
    generateRandom
        (feed [1, 2, 4, 8, 16, 32, 64, 128] ++ feed [0, 0, 0, 0, 0, 0, 0, 0]) initState
      = .returned 0 ⟨128, false, 0, 0⟩ (feed [0, 0, 0, 0, 0, 0, 0, 0]) ∧
    generateRandom (feed [0, 0, 0, 0, 0, 0, 0, 0]) ⟨128, false, 0, 0⟩
      = .returned 0 ⟨0, false, 0, 0⟩ [] ∧
    (samplesSeen
        (feed [1, 2, 4, 8, 16, 32, 64, 128] ++ feed [0, 0, 0, 0, 0, 0, 0, 0])
        initState).take 8 = [1, 2, 4, 8, 16, 32, 64, 128] ∧
    (samplesSeen (feed [0, 0, 0, 0, 0, 0, 0, 0]) ⟨128, false, 0, 0⟩).take 8
      = [0, 0, 0, 0, 0, 0, 0, 0] ∧
    [1, 2, 4, 8, 16, 32, 64, 128] ≠ [0, 0, 0, 0, 0, 0, 0, 0] := by
  decide

/-- C4, amended: for every starting accumulator and every two consecutive
calls of `generateRandom`, the byte returned by the second call differs from
the byte returned by the first call exactly when the second call's 8-sample
window does not mix to zero, that is, when the fold of that window started
from `0` is not `0`. -/
theorem second_output_differs_iff (evs : List Event) (st : State)
    (hs : st.sample < 256) (hr : st.result < 256)
    (h : 16 ≤ (samplesSeen evs st).length) :
    ∃ r1 st1 rest1 r2 st2 rest2,
      generateRandom evs st = .returned r1 st1 rest1 ∧
      generateRandom rest1 st1 = .returned r2 st2 rest2 ∧
      (r2 ≠ r1 ↔ mix 0 ((samplesSeen rest1 st1).take 8) ≠ 0) := by
  obtain ⟨r1, st1, rest1, r2, st2, rest2, h1, _, h3, _, _, _, _, _, h9⟩ :=
    two_calls evs st hs hr h
  refine ⟨r1, st1, rest1, r2, st2, rest2, h1, h3, ?_⟩
  rw [h9, Ne, Ne, xor_eq_left_iff]

theorem second_output_differs_iff_witness :
    16 ≤ (samplesSeen (feed [1, 2, 3, 4, 5, 6, 7, 8, 9, 10, 11, 12, 13, 14, 15, 16])
      initState).length ∧
    ∃ r1 st1 rest1 r2 st2 rest2,
      generateRandom (feed [1, 2, 3, 4, 5, 6, 7, 8, 9, 10, 11, 12, 13, 14, 15, 16])
        initState = .returned r1 st1 rest1 ∧
      generateRandom rest1 st1 = .returned r2 st2 rest2 ∧
      (r2 ≠ r1 ↔ mix 0 ((samplesSeen rest1 st1).take 8) ≠ 0) :=
  ⟨by decide,
    second_output_differs_iff
      (feed [1, 2, 3, 4, 5, 6, 7, 8, 9, 10, 11, 12, 13, 14, 15, 16]) initState
      (by decide) (by decide) (by decide)⟩

/-- C5: the accumulator persists across calls.  The value a call returns is
the accumulator it leaves behind, and when two consecutive calls read 16
samples `s0..s15`, the second call returns the fold of `s8..s15` started from
the first call's return value, which is the 16-step fold of `s0..s15` from
the starting accumulator; it coincides with the fold of `s8..s15` started
from zero only when the first call returned zero. -/
theorem accumulator_persists (evs : List Event) (st : State)
    (hs : st.sample < 256) (hr : st.result < 256)
    (h : 16 ≤ (samplesSeen evs st).length) :
    ∃ r1 st1 rest1 r2 st2 rest2,
      generateRandom evs st = .returned r1 st1 rest1 ∧ st1.result = r1 ∧
      generateRandom rest1 st1 = .returned r2 st2 rest2 ∧ st2.result = r2 ∧
      r1 = mix st.result ((samplesSeen evs st).take 8) ∧
      r2 = mix r1 (((samplesSeen evs st).drop 8).take 8) ∧
      r2 = mix st.result ((samplesSeen evs st).take 16) ∧
      (r2 = mix 0 (((samplesSeen evs st).drop 8).take 8) ↔ r1 = 0) := by
  obtain ⟨r1, st1, rest1, r2, st2, rest2, h1, h2, h3, h4, h5, _, h7, h8, h9⟩ :=
    two_calls evs st hs hr h
  rw [h7] at h8 h9
  refine ⟨r1, st1, rest1, r2, st2, rest2, h1, h2, h3, h4, h5, h8, ?_, ?_⟩
  · rw [h8, h5, List.take_add (samplesSeen evs st) 8 8, mix_append]
  · rw [h9, Nat.xor_comm, xor_eq_left_iff]

theorem accumulator_persists_witness :
    16 ≤ (samplesSeen (feed [1, 2, 3, 4, 5, 6, 7, 8, 9, 10, 11, 12, 13, 14, 15, 16])
      ⟨0, false, 77, 0⟩).length ∧
    ∃ r1 st1 rest1 r2 st2 rest2,
      generateRandom (feed [1, 2, 3, 4, 5, 6, 7, 8, 9, 10, 11, 12, 13, 14, 15, 16])
        ⟨0, false, 77, 0⟩ = .returned r1 st1 rest1 ∧ st1.result = r1 ∧
      generateRandom rest1 st1 = .returned r2 st2 rest2 ∧ st2.result = r2 ∧
      r1 = mix 77 [1, 2, 3, 4, 5, 6, 7, 8] ∧
      r2 = mix r1 [9, 10, 11, 12, 13, 14, 15, 16] ∧
      r2 = mix 77 [1, 2, 3, 4, 5, 6, 7, 8, 9, 10, 11, 12, 13, 14, 15, 16] ∧
      (r2 = mix 0 [9, 10, 11, 12, 13, 14, 15, 16] ↔ r1 = 0) :=
  ⟨by decide,
    accumulator_persists
      (feed [1, 2, 3, 4, 5, 6, 7, 8, 9, 10, 11, 12, 13, 14, 15, 16]) ⟨0, false, 77, 0⟩
      (by decide) (by decide) (by decide)⟩

/-- C6: if the ready flag is never set the extractor never returns.  For
every number `n` of polls with no sampler firing, starting from
`sampleWaiting = false`, the call is still inside its loop after the `n`
polls, and the accumulator, the consumed-sample count (`0` since the start
of the call), `sample` and `sampleWaiting` are what they were. -/
theorem blocks_while_flag_unset (n : Nat) (st : State)
    (h : st.sampleWaiting = false) :
    generateRandom (List.replicate n Event.poll) st
        = .blocked { st with currentBit := 0 } ∧
      runEvents (List.replicate n Event.poll) { st with currentBit := 0 }
        = { st with currentBit := 0 } := by
  exact ⟨loop_idle n _ h, run_idle n _ h⟩

theorem blocks_while_flag_unset_witness :
    initState.sampleWaiting = false ∧
      generateRandom (List.replicate 1000 Event.poll) initState
        = .blocked { initState with currentBit := 0 } ∧
      runEvents (List.replicate 1000 Event.poll) { initState with currentBit := 0 }
        = { initState with currentBit := 0 } :=
  ⟨rfl, blocks_while_flag_unset 1000 initState rfl⟩

/-- C7: latest sample wins.  Two sampler firings publishing `A` then `B`
with no poll in between leave the state that the firing of `B` alone leaves,
so nothing afterwards depends on `A`; the flag is then set, and the poll that
follows clears it, makes the accumulator `rotl acc 1 XOR (B % 256)` and
raises the consumed count by exactly one (after which, if the count exceeds
7, the call returns the accumulator). -/
theorem latest_sample_wins (st : State) (A B : Nat) (hc : st.currentBit < 255) :
    WDT_vect B (WDT_vect A st) = WDT_vect B st ∧
    (WDT_vect B (WDT_vect A st)).sampleWaiting = true ∧
    consumeSample (WDT_vect B (WDT_vect A st))
      = { sample := B % 256, sampleWaiting := false,
          result := rotl st.result 1 ^^^ (B % 256),
          currentBit := st.currentBit + 1 } ∧
    loopBody (WDT_vect B (WDT_vect A st))
      = if st.currentBit + 1 > 7 then
          ({ sample := B % 256, sampleWaiting := false,
             result := rotl st.result 1 ^^^ (B % 256), currentBit := 0 },
            some (rotl st.result 1 ^^^ (B % 256)))
        else
          ({ sample := B % 256, sampleWaiting := false,
             result := rotl st.result 1 ^^^ (B % 256),
             currentBit := st.currentBit + 1 }, none) := by
  have hx : rotl st.result 1 ^^^ (B % 256) < 256 :=
    Nat.xor_lt_two_pow (n := 8) (rotl_one_lt _) (Nat.mod_lt _ (by decide))
  have hce : consumeSample (WDT_vect B (WDT_vect A st))
      = { sample := B % 256, sampleWaiting := false,
          result := rotl st.result 1 ^^^ (B % 256),
          currentBit := st.currentBit + 1 } := by
    simp only [consumeSample, WDT_vect, TCNT1L, Nat.mod_eq_of_lt hx,
      Nat.mod_eq_of_lt (by omega : st.currentBit + 1 < 256)]
  refine ⟨rfl, rfl, hce, ?_⟩
  have hf : (WDT_vect B (WDT_vect A st)).sampleWaiting = true := rfl
  simp only [loopBody, hf, if_true, hce]

theorem latest_sample_wins_witness :
    (7 : Nat) < 255 ∧
    WDT_vect 0x56AB (WDT_vect 0x1234 ⟨9, false, 0x81, 7⟩)
      = WDT_vect 0x56AB ⟨9, false, 0x81, 7⟩ ∧
    loopBody (WDT_vect 0x56AB (WDT_vect 0x1234 ⟨9, false, 0x81, 7⟩))
      = (⟨0xAB, false, 0xA8, 0⟩, some 0xA8) :=
  ⟨by decide,
    (latest_sample_wins ⟨9, false, 0x81, 7⟩ 0x1234 0x56AB (by decide)).1,
    (latest_sample_wins ⟨9, false, 0x81, 7⟩ 0x1234 0x56AB (by decide)).2.2.2⟩

/-- C8: a call returns exactly at the poll that consumes its eighth sample.
The consumed-sample count starts at `0` whatever an earlier call left in it.
Against a schedule with fewer than 8 polls that find the flag set the call
has not returned (its count is the number of such polls); against a schedule
with at least 8 of them the call returns at the eighth, having consumed
exactly 8 samples: the schedule splits as `pre ++ poll :: rest` where `pre`
holds 7 consuming polls and leaves the call inside its loop, the poll after
`pre` is the eighth consuming poll, and the call returns there leaving
`rest` unused. -/
theorem returns_at_eighth_consuming_poll (evs : List Event) (st : State) :
    (∀ c, generateRandom evs { st with currentBit := c } = generateRandom evs st) ∧
    ((samplesSeen evs st).length < 8 →
      ∃ st1, generateRandom evs st = .blocked st1 ∧
        st1.currentBit = (samplesSeen evs st).length) ∧
    (8 ≤ (samplesSeen evs st).length →
      ∃ pre rest r st2,
        evs = pre ++ Event.poll :: rest ∧
        (samplesSeen pre st).length = 7 ∧
        (samplesSeen (pre ++ [Event.poll]) st).length = 8 ∧
        (∃ st1, generateRandom pre st = .blocked st1 ∧ st1.currentBit = 7) ∧
        generateRandom evs st = .returned r st2 rest) := by
  have hcg : ∀ l, samplesSeen l { st with currentBit := 0 } = samplesSeen l st :=
    fun l => samplesSeen_congr l _ _ rfl rfl
  refine ⟨fun _ => rfl, ?_, ?_⟩
  · intro h
    have hb := loop_blocked evs { st with currentBit := 0 }
      (by simpa [hcg] using h)
    refine ⟨_, hb.1, ?_⟩
    rw [hb.2, hcg]
    simp
  · intro h
    obtain ⟨pre, rest, hsplit, hlen, hflag⟩ :=
      samplesSeen_split evs { st with currentBit := 0 } 7 (by rw [hcg]; omega)
    have hb := loop_blocked pre { st with currentBit := 0 } (by simp [hlen])
    have hcb : (runEvents pre { st with currentBit := 0 }).currentBit = 7 := by
      rw [hb.2, hlen]
    have hlb := loopBody_return _ hflag hcb
    refine ⟨pre, rest,
      (consumeSample (runEvents pre { st with currentBit := 0 })).result,
      { consumeSample (runEvents pre { st with currentBit := 0 }) with currentBit := 0 },
      hsplit, by rw [← hcg, hlen], ?_, ⟨_, hb.1, hcb⟩, ?_⟩
    · rw [← hcg, samplesSeen_append, samplesSeen_poll_set _ _ hflag]
      simp [hlen, samplesSeen]
    · conv_lhs => rw [hsplit]
      unfold generateRandom
      rw [loop_append pre _ _ _ hb.1]
      simp only [generateRandomLoop, hlb]

theorem returns_at_eighth_consuming_poll_witness :
    ((samplesSeen (feed [1, 2, 3, 4, 5, 6, 7]) ⟨0, false, 0, 200⟩).length < 8 ∧
      ∃ st1, generateRandom (feed [1, 2, 3, 4, 5, 6, 7]) ⟨0, false, 0, 200⟩
          = .blocked st1 ∧
        st1.currentBit
          = (samplesSeen (feed [1, 2, 3, 4, 5, 6, 7]) ⟨0, false, 0, 200⟩).length) ∧
    (8 ≤ (samplesSeen (feed [1, 2, 3, 4, 5, 6, 7, 8, 9]) ⟨0, false, 0, 200⟩).length ∧
      ∃ pre rest r st2,
        feed [1, 2, 3, 4, 5, 6, 7, 8, 9] = pre ++ Event.poll :: rest ∧
        (samplesSeen pre ⟨0, false, 0, 200⟩).length = 7 ∧
        (samplesSeen (pre ++ [Event.poll]) ⟨0, false, 0, 200⟩).length = 8 ∧
        (∃ st1, generateRandom pre ⟨0, false, 0, 200⟩ = .blocked st1 ∧
          st1.currentBit = 7) ∧
        generateRandom (feed [1, 2, 3, 4, 5, 6, 7, 8, 9]) ⟨0, false, 0, 200⟩
          = .returned r st2 rest) :=
  ⟨⟨by decide,
      (returns_at_eighth_consuming_poll (feed [1, 2, 3, 4, 5, 6, 7])
        ⟨0, false, 0, 200⟩).2.1 (by decide)⟩,
    ⟨by decide,
      (returns_at_eighth_consuming_poll (feed [1, 2, 3, 4, 5, 6, 7, 8, 9])
        ⟨0, false, 0, 200⟩).2.2 (by decide)⟩⟩

/-- C10: the ready-flag invariant of the machine whose steps are an atomic
sampler firing and an atomic extractor poll, started with
`sampleWaiting = false`.  After every run the flag is true exactly when a
sampler firing has occurred since the most recent consuming poll (or since
the start when there was none): some firing of the run is followed by no
poll that found the flag set.  The flag is true after every sampler firing
and false after every consuming poll. -/
theorem ready_flag_invariant (evs : List Event) (st : State)
    (h0 : st.sampleWaiting = false) :
    (runEvents evs st).sampleWaiting = firedSinceConsume evs st false ∧
    ((runEvents evs st).sampleWaiting = true ↔
      ∃ pre c post, evs = pre ++ Event.wdt c :: post ∧
        ∀ p1 p2, post = p1 ++ Event.poll :: p2 →
          (runEvents (pre ++ Event.wdt c :: p1) st).sampleWaiting = false) ∧
    (∀ c, (runEvents (evs ++ [Event.wdt c]) st).sampleWaiting = true) ∧
    ((runEvents evs st).sampleWaiting = true →
      (runEvents (evs ++ [Event.poll]) st).sampleWaiting = false) := by
  refine ⟨(firedSinceConsume_eq evs st false h0.symm).symm, ⟨?_, ?_⟩,
    fun c => flag_after_wdt evs c st, fun _ => flag_after_poll evs st⟩
  · intro h
    rcases List.eq_nil_or_concat evs with hnil | ⟨xs, e, hxs⟩
    · rw [hnil, runEvents_nil, h0] at h
      exact absurd h (by simp)
    · rw [List.concat_eq_append] at hxs
      cases e with
      | wdt c =>
        refine ⟨xs, c, [], hxs, ?_⟩
        intro p1 p2 hp
        exact absurd hp (by simp)
      | poll =>
        rw [hxs, flag_after_poll] at h
        exact absurd h (by simp)
  · rintro ⟨pre, c, post, hsplit, hno⟩
    rw [hsplit]
    exact flag_of_no_consuming_poll pre post c st hno

theorem ready_flag_invariant_witness :
    initState.sampleWaiting = false ∧
    (runEvents [Event.wdt 5, Event.poll, Event.poll, Event.wdt 6, Event.wdt 7]
        initState).sampleWaiting
      = firedSinceConsume
          [Event.wdt 5, Event.poll, Event.poll, Event.wdt 6, Event.wdt 7]
          initState false ∧
    firedSinceConsume [Event.wdt 5, Event.poll, Event.poll, Event.wdt 6, Event.wdt 7]
      initState false = true ∧
    firedSinceConsume [Event.wdt 5, Event.poll, Event.poll] initState false = false :=
  ⟨rfl,
    (ready_flag_invariant
      [Event.wdt 5, Event.poll, Event.poll, Event.wdt 6, Event.wdt 7] initState rfl).1,
    by decide, by decide⟩

/-- C9: only the low three bits of the shift matter.  For every `v` and
every shift `s`, `rotl v s = rotl v (s % 8)`; `rotl v 0 = v`,
`rotl v 8 = v`, and `rotl v s = v` for every multiple `s = 8 * m` of 8. -/
theorem rotl_low_three_bits (v s m : Nat) :
    rotl v s = rotl v (s % 8) ∧ rotl v 0 = v ∧ rotl v 8 = v ∧ rotl v (8 * m) = v :=
  ⟨rotl_mod v s, rotl_zero_shift v 0 (by decide), rotl_zero_shift v 8 (by decide),
    rotl_zero_shift v (8 * m) (by omega)⟩

/-- C12: a poll that finds the flag unset changes nothing: it returns no
byte and leaves the accumulator, the consumed-sample count, `sample` and
`sampleWaiting` as they were.  Consequently idle polls inserted into a
schedule, at a point where the call is inside its loop with the flag unset,
do not change what the call does, and the byte a call returns is determined
by the starting accumulator and the samples its consuming polls read. -/
theorem idle_poll_changes_nothing :
    (∀ st : State, st.sampleWaiting = false → loopBody st = (st, none)) ∧
    (∀ (xs ys : List Event) (n : Nat) (st st1 : State),
      generateRandom xs st = .blocked st1 → st1.sampleWaiting = false →
      generateRandom (xs ++ List.replicate n Event.poll ++ ys) st
        = generateRandom (xs ++ ys) st) ∧
    (∀ (evs evs2 : List Event) (st st2 : State),
      st.sample < 256 → st.result < 256 → st2.sample < 256 →
      st2.result = st.result →
      8 ≤ (samplesSeen evs st).length →
      (samplesSeen evs2 st2).take 8 = (samplesSeen evs st).take 8 →
      ∃ r s1 r1 s2 r2, generateRandom evs st = .returned r s1 r1 ∧
        generateRandom evs2 st2 = .returned r s2 r2) := by
  refine ⟨loopBody_idle, ?_, ?_⟩
  · intro xs ys n st st1 h hf
    unfold generateRandom at h ⊢
    rw [List.append_assoc, loop_append xs _ _ _ h, loop_append xs ys _ _ h,
      loop_append _ ys _ _ (loop_idle n st1 hf)]
  · intro evs evs2 st st2 hs hr hs2 hres h8 htake
    have hl : ((samplesSeen evs2 st2).take 8).length = 8 := by
      rw [htake, List.length_take]
      omega
    rw [List.length_take] at hl
    obtain ⟨_, r1, s1, _, _, h3, _⟩ := call_returns evs st hs hr h8
    obtain ⟨_, r2, s2, _, _, k3, _⟩ :=
      call_returns evs2 st2 hs2 (by rw [hres]; exact hr) (by omega)
    rw [hres, htake] at k3
    exact ⟨_, s1, r1, s2, r2, h3, k3⟩

theorem idle_poll_changes_nothing_witness :
    loopBody ⟨9, false, 77, 3⟩ = (⟨9, false, 77, 3⟩, none) ∧
    generateRandom
        (feed [1, 2, 3] ++ List.replicate 5 Event.poll ++ feed [4, 5, 6, 7, 8])
        initState
      = generateRandom (feed [1, 2, 3] ++ feed [4, 5, 6, 7, 8]) initState ∧
    ∃ r s1 r1 s2 r2,
      generateRandom (feed [1, 2, 3, 4, 5, 6, 7, 8]) initState = .returned r s1 r1 ∧
      generateRandom
          (Event.poll :: feed [1, 2, 3, 4] ++ [Event.poll, Event.poll]
            ++ feed [5, 6, 7, 8])
          ⟨200, false, 0, 5⟩ = .returned r s2 r2 :=
  ⟨idle_poll_changes_nothing.1 ⟨9, false, 77, 3⟩ rfl,
    idle_poll_changes_nothing.2.1 (feed [1, 2, 3]) (feed [4, 5, 6, 7, 8]) 5 initState
      ⟨3, false, 3, 3⟩ (by decide) rfl,
    idle_poll_changes_nothing.2.2 (feed [1, 2, 3, 4, 5, 6, 7, 8])
      (Event.poll :: feed [1, 2, 3, 4] ++ [Event.poll, Event.poll] ++ feed [5, 6, 7, 8])
      initState ⟨200, false, 0, 5⟩ (by decide) (by decide) (by decide) rfl
      (by decide) (by decide)⟩

/-- C13: closed form of the mixer.  A call of `generateRandom` that starts
with accumulator `a0` and whose consuming polls read `s0..s7` returns
`a0 XOR rotl s0 7 XOR rotl s1 6 XOR ... XOR rotl s6 1 XOR s7`. -/
theorem mixer_closed_form (evs : List Event) (st : State)
    (s0 s1 s2 s3 s4 s5 s6 s7 : Nat)
    (hs : st.sample < 256) (hr : st.result < 256)
    (h : (samplesSeen evs st).take 8 = [s0, s1, s2, s3, s4, s5, s6, s7]) :
    ∃ st2 rest, generateRandom evs st
      = .returned
          (st.result ^^^ rotl s0 7 ^^^ rotl s1 6 ^^^ rotl s2 5 ^^^ rotl s3 4
            ^^^ rotl s4 3 ^^^ rotl s5 2 ^^^ rotl s6 1 ^^^ s7) st2 rest := by
  have hl : ((samplesSeen evs st).take 8).length = 8 := by rw [h]; rfl
  rw [List.length_take] at hl
  have hb : ∀ t ∈ [s0, s1, s2, s3, s4, s5, s6, s7], t < 256 := by
    rw [← h]
    exact fun t ht => samplesSeen_lt evs st hs t (List.mem_of_mem_take ht)
  obtain ⟨_, rest, st2, _, _, h3, _⟩ := call_returns evs st hs hr (by omega)
  refine ⟨st2, rest, ?_⟩
  rw [h3, h, mix_closed st.result s0 s1 s2 s3 s4 s5 s6 s7 hr
    (hb s0 (by simp)) (hb s1 (by simp)) (hb s2 (by simp)) (hb s3 (by simp))
    (hb s4 (by simp)) (hb s5 (by simp)) (hb s6 (by simp)) (hb s7 (by simp))]

theorem mixer_closed_form_witness :
    ∃ st2 rest, generateRandom (feed [3, 1, 4, 1, 5, 9, 2, 6, 5]) ⟨0, false, 200, 0⟩
      = .returned
          (200 ^^^ rotl 3 7 ^^^ rotl 1 6 ^^^ rotl 4 5 ^^^ rotl 1 4
            ^^^ rotl 5 3 ^^^ rotl 9 2 ^^^ rotl 2 1 ^^^ 6) st2 rest :=
  mixer_closed_form (feed [3, 1, 4, 1, 5, 9, 2, 6, 5]) ⟨0, false, 200, 0⟩
    3 1 4 1 5 9 2 6 (by decide) (by decide) (by decide)

/-- C14: the mixer never loses a single input.  For a starting accumulator
`a` and a window `w` of eight 8-bit samples: for every position `i` in
`0..7` the map from the sample put at position `i` to the returned byte is a
bijection on 8-bit values (it returns an 8-bit value, is injective and is
surjective); the map from the starting accumulator to the returned byte is a
bijection on 8-bit values; hence two windows that differ in exactly one
sample give different bytes from the same starting accumulator. -/
theorem mixer_loses_no_input (a : Nat) (w : List Nat) (ha : a < 256)
    (hw : ∀ s ∈ w, s < 256) (hlen : w.length = 8) :
    (∀ i < 8,
      (∀ x < 256, ∃ r < 256, returnedByte a (w.set i x) = some r) ∧
      (∀ x < 256, ∀ y < 256,
        returnedByte a (w.set i x) = returnedByte a (w.set i y) → x = y) ∧
      (∀ r < 256, ∃ x < 256, returnedByte a (w.set i x) = some r)) ∧
    ((∀ b < 256, ∃ r < 256, returnedByte b w = some r) ∧
      (∀ b < 256, ∀ c < 256, returnedByte b w = returnedByte c w → b = c) ∧
      (∀ r < 256, ∃ b < 256, returnedByte b w = some r)) ∧
    (∀ i < 8, ∀ x < 256, ∀ y < 256, x ≠ y →
      returnedByte a (w.set i x) ≠ returnedByte a (w.set i y)) := by
  have hret : ∀ i x, x < 256 →
      returnedByte a (w.set i x) = some (mix a (w.set i x)) := fun i x hx =>
    returnedByte_eq a _ ha (set_lt w i x hx hw) (by rw [List.length_set, hlen])
  have hK : ∀ i, mix (rotl (mix a (w.take i)) 1) (w.drop (i + 1)) < 256 := fun i =>
    mix_lt _ _
      (rotl_lt _ 1 (mix_lt _ _ ha (fun s hs => hw s (List.mem_of_mem_take hs))))
      (fun s hs => hw s (List.mem_of_mem_drop hs))
  have hinj : ∀ i < 8, ∀ x < 256, ∀ y < 256,
      returnedByte a (w.set i x) = returnedByte a (w.set i y) → x = y := by
    intro i hi x hx y hy h
    rw [hret i x hx, hret i y hy, Option.some.injEq,
      mix_set a x w i ha hx hw (by omega), mix_set a y w i ha hy hw (by omega),
      Nat.xor_right_inj] at h
    exact rotl_inj x y _ hx hy h
  refine ⟨fun i hi => ⟨?_, hinj i hi, ?_⟩, ⟨?_, ?_, ?_⟩, ?_⟩
  · intro x hx
    exact ⟨_, mix_lt _ _ ha (set_lt w i x hx hw), hret i x hx⟩
  · intro r hr
    have hx : rotl (mix (rotl (mix a (w.take i)) 1) (w.drop (i + 1)) ^^^ r)
        (8 - (w.drop (i + 1)).length % 8) < 256 :=
      rotl_lt _ _ (Nat.xor_lt_two_pow (n := 8) (hK i) hr)
    refine ⟨_, hx, ?_⟩
    rw [hret i _ hx, mix_set a _ w i ha hx hw (by omega),
      rotl_cancel_left _ _ (Nat.xor_lt_two_pow (n := 8) (hK i) hr),
      Nat.xor_cancel_left]
  · intro b hb
    exact ⟨_, mix_lt _ _ hb hw, returnedByte_eq b w hb hw hlen⟩
  · intro b hb c hc h
    rw [returnedByte_eq b w hb hw hlen, returnedByte_eq c w hc hw hlen,
      Option.some.injEq, mix_eight w b hb hw hlen, mix_eight w c hc hw hlen,
      Nat.xor_left_inj] at h
    exact h
  · intro r hr
    have hb : r ^^^ mix 0 w < 256 :=
      Nat.xor_lt_two_pow (n := 8) hr (mix_lt _ _ (by decide) hw)
    refine ⟨_, hb, ?_⟩
    rw [returnedByte_eq _ w hb hw hlen, mix_eight w _ hb hw hlen,
      Nat.xor_cancel_right]
  · intro i hi x hx y hy hne h
    exact hne (hinj i hi x hx y hy h)

theorem mixer_loses_no_input_witness :
    (∀ x < 256, ∀ y < 256,
      returnedByte 77 ([1, 2, 3, 4, 5, 6, 7, 8].set 3 x)
        = returnedByte 77 ([1, 2, 3, 4, 5, 6, 7, 8].set 3 y) → x = y) ∧
    (∀ r < 256, ∃ b < 256, returnedByte b [1, 2, 3, 4, 5, 6, 7, 8] = some r) :=
  ⟨((mixer_loses_no_input 77 [1, 2, 3, 4, 5, 6, 7, 8] (by decide) (by decide)
      rfl).1 3 (by decide)).2.1,
    (mixer_loses_no_input 77 [1, 2, 3, 4, 5, 6, 7, 8] (by decide) (by decide)
      rfl).2.1.2.2⟩

/-- C11, as stated, fails: an interrupt served between the poll's
`sampleWaiting = false` and its `result ^= sample` makes that poll fold the
new write although it cleared the flag set by the previous one, and leaves
the flag set, so the next poll folds the same write again.  Here write 1
(`0x11`) is never folded and write 2 (`0x22`) is folded by both polls: the
accumulator `0x66` is `rotl 0x22 1 XOR 0x22`. -/
theorem preempted_poll_folds_twice :
    runActions
        [Action.isr 0x11, Action.stmt, Action.stmt, Action.isr 0x22, Action.stmt,
          Action.stmt, Action.stmt, Action.stmt, Action.stmt, Action.stmt, Action.stmt]
        ⟨initState, Pc.test⟩ ⟨0, 0, []⟩
      = (⟨⟨0x22, false, 0x66, 1⟩, Pc.count⟩, ⟨2, 2, [(1, 2), (2, 2)]⟩) ∧
    ¬ ([(1, 2), (2, 2)].map Prod.snd : List Nat).Nodup ∧
    rotl (rotl 0 1 ^^^ 0x22) 1 ^^^ 0x22 = 0x66 := by
  decide

/-- C11, amended: under preemption at the level of the extractor's
statements, for every interleaving in which no sampler interrupt is served
between a poll's clearing of `sampleWaiting` and its read-and-XOR of
`sample`, started at the head of the loop with the flag unset, no sampler
write is folded into the accumulator by more than one consuming poll, and
the write a consuming poll folds is the one whose publication set the flag
that poll cleared (a write made during the run). -/
theorem folds_once_when_quiet (acts : List Action) (c : Config) (g : Ledger)
    (hpc : c.pc = Pc.test) (hf : c.st.sampleWaiting = false) (hg : g.folds = [])
    (hq : quiet acts c = true) :
    (∀ p ∈ (runActions acts c g).2.folds,
      p.1 = p.2 ∧ g.fired < p.2 ∧ p.2 ≤ (runActions acts c g).2.fired) ∧
    ((runActions acts c g).2.folds.map Prod.snd).Nodup := by
  have hI := inv_run g.fired acts c g (inv_init c g hpc hf hg) hq
  exact ⟨hI.entries, hI.increasing.imp (fun h => Nat.ne_of_lt h)⟩

theorem folds_once_when_quiet_witness :
    quiet
        [Action.isr 0x11, Action.stmt, Action.isr 0x22, Action.stmt, Action.stmt,
          Action.stmt, Action.isr 0x33, Action.stmt, Action.stmt, Action.stmt,
          Action.stmt, Action.stmt, Action.stmt]
        ⟨initState, Pc.test⟩ = true ∧
    (runActions
        [Action.isr 0x11, Action.stmt, Action.isr 0x22, Action.stmt, Action.stmt,
          Action.stmt, Action.isr 0x33, Action.stmt, Action.stmt, Action.stmt,
          Action.stmt, Action.stmt, Action.stmt]
        ⟨initState, Pc.test⟩ ⟨0, 0, []⟩).2.folds = [(2, 2), (3, 3)] ∧
    ((runActions
        [Action.isr 0x11, Action.stmt, Action.isr 0x22, Action.stmt, Action.stmt,
          Action.stmt, Action.isr 0x33, Action.stmt, Action.stmt, Action.stmt,
          Action.stmt, Action.stmt, Action.stmt]
        ⟨initState, Pc.test⟩ ⟨0, 0, []⟩).2.folds.map Prod.snd).Nodup :=
  ⟨by decide, by decide,
    (folds_once_when_quiet
      [Action.isr 0x11, Action.stmt, Action.isr 0x22, Action.stmt, Action.stmt,
        Action.stmt, Action.isr 0x33, Action.stmt, Action.stmt, Action.stmt,
        Action.stmt, Action.stmt, Action.stmt]
      ⟨initState, Pc.test⟩ ⟨0, 0, []⟩ rfl rfl rfl (by decide)).2⟩

end RandomGenerator
